import Mathlib

/-!
Verification of the ksonnet Environment Registry (`cmd/env.go` and the
store operations it delegates to).

The CLI layer (`envAddCmd`, `envRmCmd`, `envListCmd`, `envSetCmd`,
`commonEnvFlags`) is embedded directly from `src/cmd/env.go`.  The
environment store (`kubecfg`/`metadata` packages: `create`, `delete`,
`rename`, `updateSpec`, name normalization) is not part of the available
source tree; those operations are modelled from the spec, as marked in
their doc comments.
-/

namespace Ksonnet

/-- Error kinds of the registry (§7 of the spec).  `arityError` carries the
command's usage message, as `fmt.Errorf` does in `env.go`. -/
inductive EnvError where
  | arityError (msg : String)
  | conflictingFlags
  | invalidName (seg : String)
  | duplicateEnv
  | envNotFound
  | contextNotFound (id : String)
  | contextResolution (msg : String)
  | storeIOError
deriving DecidableEq, Repr

/-- The flag set registered on the `env` subcommands in `init` of
`env.go`.  A `none` value means the flag was not supplied on the command
line; `pflag.GetString` then returns the registered default. -/
structure FlagSet where
  uri : Option String
  nspace : Option String
  context : Option String
  apiSpec : Option String
  name : Option String
deriving DecidableEq, Repr

/-- `pflag`'s `GetString`: the supplied value, or the registered default
when the flag was not set. -/
def getStringFlag (v : Option String) (dflt : String) : String :=
  v.getD dflt

/-- Default of the `--api-spec` flag, registered in `init` of `env.go`. -/
def flagAPISpecDefault : String := "version:v1.7.0"

/-- External context resolver (§4.2): given an optional context
identifier (`none` = currently active context), yields `(uri, namespace)`
or an error. -/
def Resolver : Type := Option String → Except EnvError (String × String)

/-- `commonEnvFlags` from `env.go`: reads the `uri`, `namespace` and
`context` flags and rejects the combination of a non-empty `context` with
a non-empty `uri`. -/
def commonEnvFlags (flags : FlagSet) : Except EnvError (String × String × String) :=
  let uri := getStringFlag flags.uri ""
  let nspace := getStringFlag flags.nspace ""
  let context := getStringFlag flags.context ""
  if context.length ≠ 0 ∧ uri.length ≠ 0 then
    .error .conflictingFlags
  else
    .ok (uri, nspace, context)

/-- Usage message returned by `env add` on an arity violation. -/
def envAddArityMsg : String :=
  "env add takes exactly one argument, which is the name of the environment"

/-- Usage message returned by `env rm` on an arity violation. -/
def envRmArityMsg : String :=
  "env rm takes a single argument, that is the name of the environment"

/-- Usage message returned by `env list` on an arity violation. -/
def envListArityMsg : String :=
  "env list takes zero arguments"

/-- Usage message returned by `env set` on an arity violation. -/
def envSetArityMsg : String :=
  "env set takes a single argument, that is the name of the environment"

/-- The values `env add` hands to `kubecfg.NewEnvAddCmd`. -/
structure EnvAddParams where
  name : String
  uri : String
  nspace : String
  spec : String
deriving DecidableEq, Repr

/-- The `RunE` body of `envAddCmd` in `env.go`, up to the call of
`kubecfg.NewEnvAddCmd`: arity check, `commonEnvFlags`, and context
resolution when no `uri` was given (adopting the context's namespace when
no `namespace` was given). -/
def envAddCmdRun (args : List String) (flags : FlagSet) (resolve : Resolver) :
    Except EnvError EnvAddParams :=
  match args with
  | [name] =>
    match commonEnvFlags flags with
    | .error e => .error e
    | .ok (uri, nspace, context) =>
      if uri.length = 0 then
        let ctx : Option String := if context.length ≠ 0 then some context else none
        match resolve ctx with
        | .error e => .error e
        | .ok (u, ns) =>
          .ok ⟨name, u, if nspace.length = 0 then ns else nspace,
               getStringFlag flags.apiSpec flagAPISpecDefault⟩
      else
        .ok ⟨name, uri, nspace, getStringFlag flags.apiSpec flagAPISpecDefault⟩
  | _ => .error (.arityError envAddArityMsg)

/-- The identifier `env add` hands the resolver: the `context` flag when
non-empty, otherwise `none`, which stands for the currently active
context. -/
def ctxArg (flags : FlagSet) : Option String :=
  if (getStringFlag flags.context "").length ≠ 0
  then some (getStringFlag flags.context "") else none

/-- An environment name as a list of path segments (§3). -/
abbrev Path := List String

/-- `pathPre p q`: `p` is a (not necessarily proper) prefix of `q`. -/
def pathPre : Path → Path → Bool
  | [], _ => true
  | _ :: _, [] => false
  | a :: as, b :: bs => a == b && pathPre as bs

/-- `strictPre p q`: `p` is a proper prefix of `q` (a strict ancestor
directory). -/
def strictPre (p q : Path) : Bool :=
  pathPre p q && p != q

/-- Modelled from the spec: the conservative cross-platform-safe
character set of the NameValidator (§4.1) — alphanumerics, dash,
underscore and dot; in particular no path separator of any platform. -/
def isSafeChar (c : Char) : Bool :=
  c.isAlphanum || c == '-' || c == '_' || c == '.'

/-- A segment the NameValidator rejects: empty, `.`, `..`, or holding a
character outside the safe set. -/
def badSegment (s : String) : Bool :=
  s.isEmpty || s == "." || s == ".." || !(s.toList.all isSafeChar)

/-- Splitting a character list on the `/` separator (structurally
recursive, so that concrete names evaluate). -/
def splitSegsChars : List Char → List (List Char)
  | [] => [[]]
  | c :: rest =>
    match splitSegsChars rest with
    | [] => [[c]]
    | s :: ss => if c = '/' then [] :: s :: ss else (c :: s) :: ss

/-- The `/`-separated segments of a raw name. -/
def splitSlash (raw : String) : List String :=
  (splitSegsChars raw.toList).map (fun cs => String.mk cs)

/-- Modelled from the spec: `normalize` of the NameValidator (§4.1,
missing from the source tree).  Splits on `/`, rejects empty input and
any bad segment, and is pure. -/
def normalize (raw : String) : Except EnvError Path :=
  if raw.isEmpty then .error (.invalidName raw)
  else
    match (splitSlash raw).find? badSegment with
    | some s => .error (.invalidName s)
    | none => .ok (splitSlash raw)

/-- Persisted per-environment record (§3). -/
structure EnvironmentSpec where
  uri : String
  nspace : String
  apiSpecVersion : String
deriving DecidableEq, Repr, Inhabited

/-- Modelled from the spec: the on-disk tree under the `environments/`
root (§4.3, store missing from the source tree), as an explicit node set:
`dirs` are the directories below the root (the root itself is not
listed), `specs` the spec files keyed by the directory holding them. -/
structure Store where
  dirs : List Path
  specs : List (Path × EnvironmentSpec)
deriving DecidableEq, Repr

/-- `exists(name)` of the store: a leaf with a persisted spec at exactly
that path. -/
def Store.existsEnv (st : Store) (segs : Path) : Bool :=
  st.specs.any (fun e => e.1 == segs)

/-- The spec fields recorded for `name`, when present. -/
def Store.lookupSpec (st : Store) (segs : Path) : Option EnvironmentSpec :=
  (st.specs.find? (fun e => e.1 == segs)).map (fun e => e.2)

/-- A directory is empty when it has no descendant directory and no spec
file at or below it. -/
def dirEmpty (st : Store) (p : Path) : Bool :=
  st.dirs.all (fun q => !(strictPre p q)) && st.specs.all (fun e => !(pathPre p e.1))

/-- Modelled from the spec: the upward pruning walk of `delete`/`rename`
(§4.3) over a list of ancestors ordered leaf-side first — remove each
ancestor that is empty, stop at the first non-empty one. -/
def pruneUp : Store → List Path → Store
  | st, [] => st
  | st, p :: rest =>
    if dirEmpty st p then
      pruneUp ⟨st.dirs.filter (fun q => q != p), st.specs⟩ rest
    else st

/-- The proper nonempty ancestors of a path, longest (deepest) first:
the walk of the pruning pass starts at the leaf's parent and ends at the
child of the root. -/
def ancestorChain : Path → List Path
  | [] => []
  | [_] => []
  | a :: b :: rest =>
    ((ancestorChain (b :: rest)).map (fun q => a :: q)) ++ [[a]]

/-- The nonempty prefixes of a path — the directories `create` needs. -/
def pathInits (p : Path) : List Path :=
  (List.range p.length).map (fun k => p.take (k + 1))

/-- Modelled from the spec: `create` (§4.3).  Fails with
`DuplicateEnvironmentError` when the name exists, an existing leaf lies
on its path, or an existing leaf would become its descendant; otherwise
materializes the needed directories and records the spec. -/
def Store.create (st : Store) (segs : Path) (sp : EnvironmentSpec) :
    Except EnvError Store :=
  if st.specs.any (fun e => pathPre e.1 segs || pathPre segs e.1) then
    .error .duplicateEnv
  else
    .ok ⟨st.dirs ++ (pathInits segs).filter (fun p => !(st.dirs.contains p)),
         st.specs ++ [(segs, sp)]⟩

/-- Modelled from the spec: `delete` (§4.3).  Fails with
`EnvironmentNotFoundError` when the leaf is absent; otherwise removes the
leaf directory with its whole subtree and then prunes newly empty
ancestors upward, stopping at the root or the first non-empty one. -/
def Store.delete (st : Store) (segs : Path) : Except EnvError Store :=
  if st.existsEnv segs then
    .ok (pruneUp
      ⟨st.dirs.filter (fun q => !(pathPre segs q)),
       st.specs.filter (fun e => !(pathPre segs e.1))⟩
      (ancestorChain segs))
  else .error .envNotFound

/-- Relocation of a path inside the subtree rooted at `oldP` to the
corresponding path under `newP`. -/
def movePath (oldP newP q : Path) : Path :=
  if pathPre oldP q then newP ++ q.drop oldP.length else q

/-- Modelled from the spec: `rename` (§4.3).  Fails with
`EnvironmentNotFoundError` when the source is absent and with
`DuplicateEnvironmentError` when the destination exists; otherwise
creates the destination parents, moves the subtree, and prunes the old
ancestors as `delete` does. -/
def Store.rename (st : Store) (oldP newP : Path) : Except EnvError Store :=
  if !(st.existsEnv oldP) then .error .envNotFound
  else if st.existsEnv newP then .error .duplicateEnv
  else
    .ok (pruneUp
      ⟨st.dirs.filter (fun q => !(pathPre oldP q)) ++
         (pathInits newP).filter (fun p => !(st.dirs.contains p)) ++
         (st.dirs.filter (fun q => pathPre oldP q)).map (movePath oldP newP),
       st.specs.map (fun e =>
         if pathPre oldP e.1 then (movePath oldP newP e.1, e.2) else e)⟩
      (ancestorChain oldP))

/-- Modelled from the spec: `updateSpec` (§4.3).  Fails with
`EnvironmentNotFoundError` when absent; otherwise applies the mutation to
the stored spec in an all-or-nothing write. -/
def Store.updateSpec (st : Store) (segs : Path)
    (f : EnvironmentSpec → EnvironmentSpec) : Except EnvError Store :=
  if st.existsEnv segs then
    .ok ⟨st.dirs, st.specs.map (fun e => if e.1 == segs then (e.1, f e.2) else e)⟩
  else .error .envNotFound

/-- Canonical `/`-joined form of a name (§3). -/
def canonical (p : Path) : String := String.intercalate "/" p

/-- Modelled from the spec: `list` (§4.3) — the tree's leaves ordered
lexicographically by canonical name. -/
def Store.list (st : Store) : List (Path × EnvironmentSpec) :=
  st.specs.mergeSort (fun a b => decide (canonical a.1 ≤ canonical b.1))

/-- The full `env add` invocation: the `envAddCmd` body from `env.go`
followed by the store-side work of `kubecfg.NewEnvAddCmd` (modelled from
the spec: normalize then `create`).  Returns the error, if any, together
with the resulting on-disk tree. -/
def envAddRun (args : List String) (flags : FlagSet) (resolve : Resolver)
    (st : Store) : Option EnvError × Store :=
  match envAddCmdRun args flags resolve with
  | .error e => (some e, st)
  | .ok p =>
    match normalize p.name with
    | .error e => (some e, st)
    | .ok segs =>
      match st.create segs ⟨p.uri, p.nspace, p.spec⟩ with
      | .error e => (some e, st)
      | .ok st' => (none, st')

/-- The full `env rm` invocation: the `envRmCmd` body from `env.go`
followed by the store-side work of `kubecfg.NewEnvRmCmd` (modelled from
the spec: normalize then `delete`). -/
def envRmRun (args : List String) (st : Store) : Option EnvError × Store :=
  match args with
  | [name] =>
    match normalize name with
    | .error e => (some e, st)
    | .ok segs =>
      match st.delete segs with
      | .error e => (some e, st)
      | .ok st' => (none, st')
  | _ => (some (.arityError envRmArityMsg), st)

/-- The full `env list` invocation: arity check from `env.go`, then the
store listing.  Performs no mutation. -/
def envListRun (args : List String) (st : Store) :
    Except EnvError (List (Path × EnvironmentSpec)) :=
  match args with
  | [] => .ok st.list
  | _ => .error (.arityError envListArityMsg)

/-- The values `env set` hands to `kubecfg.NewEnvSetCmd`. -/
structure EnvSetParams where
  originalName : String
  name : String
  uri : String
  nspace : String
deriving DecidableEq, Repr

/-- The `RunE` body of `envSetCmd` in `env.go`, up to the call of
`kubecfg.NewEnvSetCmd`: arity check, `name` flag, `commonEnvFlags`, and —
when `context` is non-empty — resolution of the context into a new `uri`
only (`uri, _, err = resolveContext(&context)` discards the namespace). -/
def envSetCmdRun (args : List String) (flags : FlagSet) (resolve : Resolver) :
    Except EnvError EnvSetParams :=
  match args with
  | [originalName] =>
    let name := getStringFlag flags.name ""
    match commonEnvFlags flags with
    | .error e => .error e
    | .ok (uri, nspace, context) =>
      if context.length ≠ 0 then
        match resolve (some context) with
        | .error e => .error e
        | .ok (u, _) => .ok ⟨originalName, name, u, nspace⟩
      else
        .ok ⟨originalName, name, uri, nspace⟩
  | _ => .error (.arityError envSetArityMsg)

/-- Modelled from the spec (§4.4 Set): the store-side work of
`kubecfg.NewEnvSetCmd`.  Normalize the old name; when a differing new
name was supplied, `rename` first; then apply uri/namespace changes via
`updateSpec` against the (possibly renamed) target, a no-op when neither
field is set.  `writeFails` injects a filesystem failure of the
spec-file write inside `updateSpec`, the failure mode §4.4's
partial-failure rule is about. -/
def envSetStoreRun (p : EnvSetParams) (writeFails : Bool) (st : Store) :
    Option EnvError × Store :=
  match normalize p.originalName with
  | .error e => (some e, st)
  | .ok oldSegs =>
    let renameStep : Except EnvError (Store × Path) :=
      if p.name.length ≠ 0 ∧ p.name ≠ p.originalName then
        match normalize p.name with
        | .error e => .error e
        | .ok newSegs =>
          match st.rename oldSegs newSegs with
          | .error e => .error e
          | .ok st1 => .ok (st1, newSegs)
      else .ok (st, oldSegs)
    match renameStep with
    | .error e => (some e, st)
    | .ok (st1, segs) =>
      if p.uri.length = 0 ∧ p.nspace.length = 0 then (none, st1)
      else if writeFails then (some .storeIOError, st1)
      else
        match st1.updateSpec segs (fun sp =>
          ⟨if p.uri.length ≠ 0 then p.uri else sp.uri,
           if p.nspace.length ≠ 0 then p.nspace else sp.nspace,
           sp.apiSpecVersion⟩) with
        | .error e => (some e, st1)
        | .ok st2 => (none, st2)

/-- The full `env set` invocation: the `envSetCmd` body from `env.go`
followed by the modelled store-side work. -/
def envSetRun (args : List String) (flags : FlagSet) (resolve : Resolver)
    (writeFails : Bool) (st : Store) : Option EnvError × Store :=
  match envSetCmdRun args flags resolve with
  | .error e => (some e, st)
  | .ok p => envSetStoreRun p writeFails st

/-- Outcome of a single store mutation: the error, if any, and the tree
afterwards — a failed mutation leaves the tree untouched. -/
def runMutation (st : Store) (m : Except EnvError Store) : Option EnvError × Store :=
  match m with
  | .error e => (some e, st)
  | .ok st' => (none, st')

/-! ## Concrete fixtures for the closed instantiations -/

/-- A concrete spec record. -/
def specW : EnvironmentSpec := ⟨"https://host:6443", "", "version:v1.7.0"⟩

/-- A concrete tree: leaf `a/b` (with a metadata subdirectory `a/b/m`)
and leaf `a/c`, sharing the parent directory `a`. -/
def storeW : Store :=
  ⟨[["a"], ["a", "b"], ["a", "b", "m"], ["a", "c"]],
   [(["a", "b"], specW), (["a", "c"], specW)]⟩

/-- The tree `storeW` after renaming `a/b` to `c`. -/
def storeW1 : Store :=
  ⟨[["a"], ["a", "c"], ["c"], ["c"], ["c", "m"]],
   [(["c"], specW), (["a", "c"], specW)]⟩

/-- Flags of a call passing both a URI and a context. -/
def flagsBoth : FlagSet := ⟨some "https://u", none, some "dev", none, none⟩

/-- Flags of a call passing only a context. -/
def flagsCtx : FlagSet := ⟨none, none, some "dev", none, none⟩

/-- Flags of a call passing only a namespace. -/
def flagsNs : FlagSet := ⟨none, some "prod", none, none, none⟩

/-- A deterministic resolver standing in for the kubeconfig reader. -/
def resolverW : Resolver := fun c =>
  .ok ("https://resolved-" ++ c.getD "current", "ns-resolved")

/-! ## Basic facts about path prefixes -/

theorem pathPre_iff {p q : Path} : pathPre p q = true ↔ p <+: q := by
  induction p generalizing q with
  | nil => simp [pathPre, List.nil_prefix]
  | cons a as ih =>
    cases q with
    | nil => simp [pathPre]
    | cons b bs => simp [pathPre, ih, List.cons_prefix_cons]

theorem pathPre_refl (p : Path) : pathPre p p = true :=
  pathPre_iff.mpr List.prefix_rfl

theorem strictPre_iff {p q : Path} : strictPre p q = true ↔ p <+: q ∧ p ≠ q := by
  simp [strictPre, pathPre_iff, bne_iff_ne]

theorem strictPre_trans_left {p c q : Path} (h1 : strictPre p c = true)
    (h2 : pathPre c q = true) : strictPre p q = true := by
  rcases strictPre_iff.mp h1 with ⟨hpc, hne⟩
  have hcq := pathPre_iff.mp h2
  refine strictPre_iff.mpr ⟨hpc.trans hcq, ?_⟩
  rintro rfl
  exact hne (hpc.eq_of_length (le_antisymm hpc.length_le hcq.length_le))

theorem pathPre_trans {p c q : Path} (h1 : pathPre p c = true)
    (h2 : pathPre c q = true) : pathPre p q = true :=
  pathPre_iff.mpr ((pathPre_iff.mp h1).trans (pathPre_iff.mp h2))

theorem ne_of_pathPre_false {p q : Path} (h : pathPre p q = false) : p ≠ q := by
  rintro rfl
  rw [pathPre_refl] at h
  exact Bool.noConfusion h

/-! ## Facts about empty directories and the pruning walk -/

theorem dirEmpty_eq_true_iff {st : Store} {p : Path} :
    dirEmpty st p = true ↔
      (∀ q ∈ st.dirs, strictPre p q = false) ∧
      (∀ e ∈ st.specs, pathPre p e.1 = false) := by
  simp [dirEmpty, List.all_eq_true, Bool.not_eq_true']

theorem dirEmpty_eq_false_iff {st : Store} {p : Path} :
    dirEmpty st p = false ↔
      (∃ q ∈ st.dirs, strictPre p q = true) ∨
      (∃ e ∈ st.specs, pathPre p e.1 = true) := by
  rw [← Bool.not_eq_true, dirEmpty_eq_true_iff, not_and_or]
  constructor
  · rintro (h | h)
    · rcases not_forall.mp h with ⟨q, hq⟩
      rcases Classical.not_imp.mp hq with ⟨hmem, hne⟩
      exact Or.inl ⟨q, hmem, by simpa using hne⟩
    · rcases not_forall.mp h with ⟨e, he⟩
      rcases Classical.not_imp.mp he with ⟨hmem, hne⟩
      exact Or.inr ⟨e, hmem, by simpa using hne⟩
  · rintro (⟨q, hmem, hq⟩ | ⟨e, hmem, he⟩)
    · exact Or.inl (not_forall.mpr ⟨q, Classical.not_imp.mpr ⟨hmem, by simp [hq]⟩⟩)
    · exact Or.inr (not_forall.mpr ⟨e, Classical.not_imp.mpr ⟨hmem, by simp [he]⟩⟩)

theorem dirEmpty_anti {st : Store} {p c : Path} (hpc : strictPre p c = true)
    (h : dirEmpty st c = false) : dirEmpty st p = false := by
  rcases dirEmpty_eq_false_iff.mp h with ⟨q, hq, hcq⟩ | ⟨e, he, hce⟩
  · exact dirEmpty_eq_false_iff.mpr
      (Or.inl ⟨q, hq, strictPre_trans_left hpc (pathPre_iff.mpr (strictPre_iff.mp hcq).1)⟩)
  · exact dirEmpty_eq_false_iff.mpr
      (Or.inr ⟨e, he, pathPre_trans (pathPre_iff.mpr (strictPre_iff.mp hpc).1) hce⟩)

theorem pruneUp_specs (chain : List Path) (st : Store) :
    (pruneUp st chain).specs = st.specs := by
  induction chain generalizing st with
  | nil => rfl
  | cons c rest ih =>
    by_cases h : dirEmpty st c = true <;> simp [pruneUp, h, ih]

theorem pruneUp_dirs_subset (chain : List Path) (st : Store) :
    (pruneUp st chain).dirs ⊆ st.dirs := by
  induction chain generalizing st with
  | nil => exact fun x hx => hx
  | cons c rest ih =>
    by_cases h : dirEmpty st c = true
    · simp only [pruneUp, h, if_true]
      intro x hx
      exact (List.mem_filter.mp (ih _ hx)).1
    · simp only [pruneUp, h, if_false]
      exact fun x hx => hx

theorem pruneUp_keeps_pair (chain : List Path) (st : Store) (p q : Path)
    (hp : p ∈ st.dirs) (hq : q ∈ st.dirs) (hpq : strictPre p q = true)
    (hqnot : q ∉ chain) :
    p ∈ (pruneUp st chain).dirs ∧ q ∈ (pruneUp st chain).dirs := by
  induction chain generalizing st with
  | nil => exact ⟨hp, hq⟩
  | cons c rest ih =>
    by_cases h : dirEmpty st c = true
    · have hcp : c ≠ p := by
        rintro rfl
        rw [dirEmpty_eq_false_iff.mpr (Or.inl ⟨q, hq, hpq⟩)] at h
        exact Bool.noConfusion h
      have hcq : c ≠ q := fun he => hqnot (he ▸ List.mem_cons_self c rest)
      simp only [pruneUp, h, if_true]
      exact ih _ (List.mem_filter.mpr ⟨hp, by simp [bne, Ne.symm hcp]⟩)
        (List.mem_filter.mpr ⟨hq, by simp [bne, Ne.symm hcq]⟩)
        (fun hmem => hqnot (List.mem_cons_of_mem c hmem))
    · simp only [pruneUp, h, if_false]
      exact ⟨hp, hq⟩

theorem pruneUp_remaining_nonempty (chain : List Path) (st : Store)
    (hpw : List.Pairwise (fun a b => strictPre b a = true) chain) :
    ∀ p ∈ chain, p ∈ (pruneUp st chain).dirs →
      dirEmpty (pruneUp st chain) p = false := by
  induction chain generalizing st with
  | nil => intro p hp; exact absurd hp (List.not_mem_nil p)
  | cons c rest ih =>
    rcases List.pairwise_cons.mp hpw with ⟨hc, hrest⟩
    by_cases h : dirEmpty st c = true
    · simp only [pruneUp, h, if_true]
      intro p hpmem hpIn
      rcases List.mem_cons.mp hpmem with rfl | hpr
      · exfalso
        have hsub := pruneUp_dirs_subset rest
          (⟨st.dirs.filter (fun q => q != p), st.specs⟩ : Store) hpIn
        have := (List.mem_filter.mp hsub).2
        simp at this
      · exact ih _ hrest p hpr hpIn
    · have h0 : dirEmpty st c = false := by simpa using h
      simp only [pruneUp, h0, Bool.false_eq_true, if_false]
      intro p hpmem _
      rcases List.mem_cons.mp hpmem with rfl | hpr
      · exact h0
      · exact dirEmpty_anti (hc p hpr) h0

theorem strictPre_cons {a : String} {p q : Path} (h : strictPre p q = true) :
    strictPre (a :: p) (a :: q) = true := by
  rcases strictPre_iff.mp h with ⟨hp, hne⟩
  refine strictPre_iff.mpr ⟨List.cons_prefix_cons.mpr ⟨rfl, hp⟩, ?_⟩
  intro he
  exact hne (List.tail_eq_of_cons_eq he)

theorem strictPre_singleton {a : String} {q : Path} (h : q ≠ []) :
    strictPre [a] (a :: q) = true := by
  refine strictPre_iff.mpr ⟨List.cons_prefix_cons.mpr ⟨rfl, List.nil_prefix⟩, ?_⟩
  intro he
  exact h (List.tail_eq_of_cons_eq he).symm

theorem mem_ancestorChain : ∀ (segs p : Path), p ∈ ancestorChain segs →
    strictPre p segs = true ∧ p ≠ []
  | [], p, h => by simp [ancestorChain] at h
  | [a], p, h => by simp [ancestorChain] at h
  | a :: b :: rest, p, h => by
    rw [ancestorChain, List.mem_append, List.mem_map] at h
    rcases h with ⟨q, hq, rfl⟩ | h
    · have ih := mem_ancestorChain (b :: rest) q hq
      refine ⟨strictPre_cons ih.1, by simp⟩
    · have hp : p = [a] := by simpa using h
      subst hp
      exact ⟨strictPre_singleton (by simp), by simp⟩

theorem ancestorChain_pairwise : ∀ segs : Path,
    List.Pairwise (fun a b => strictPre b a = true) (ancestorChain segs)
  | [] => by simp [ancestorChain]
  | [a] => by simp [ancestorChain]
  | a :: b :: rest => by
    rw [ancestorChain, List.pairwise_append]
    refine ⟨?_, by simp, ?_⟩
    · rw [List.pairwise_map]
      exact (ancestorChain_pairwise (b :: rest)).imp (fun h => strictPre_cons h)
    · intro x hx y hy
      rw [List.mem_map] at hx
      rcases hx with ⟨q, hq, rfl⟩
      have hy1 : y = [a] := by simpa using hy
      subst hy1
      exact strictPre_singleton (mem_ancestorChain (b :: rest) q hq).2

/-- C4: `Remove` on an existing environment deletes the leaf directory
with its entire subtree, only ever removes directories (never adds, never
touches the root, which is not below itself), prunes exactly the empty
ancestors — every ancestor still present afterwards is non-empty — and
keeps every directory that still has a surviving descendant, so a parent
with another child survives. -/
theorem envRm_prunes (st : Store) (segs : Path) (h : st.existsEnv segs = true) :
    ∃ st', st.delete segs = .ok st' ∧
      (∀ q ∈ st'.dirs, pathPre segs q = false) ∧
      st'.dirs ⊆ st.dirs ∧
      (∀ e ∈ st'.specs, e ∈ st.specs ∧ pathPre segs e.1 = false) ∧
      (∀ p ∈ ancestorChain segs, strictPre p segs = true ∧ p ≠ []) ∧
      (∀ p ∈ ancestorChain segs, p ∈ st'.dirs → dirEmpty st' p = false) ∧
      (∀ p q, p ∈ st.dirs → q ∈ st.dirs → strictPre p q = true →
        pathPre segs q = false → pathPre q segs = false → p ∈ st'.dirs) := by
  rw [Store.delete, if_pos h]
  set st1 : Store := ⟨st.dirs.filter (fun q => !(pathPre segs q)),
    st.specs.filter (fun e => !(pathPre segs e.1))⟩ with hst1
  refine ⟨pruneUp st1 (ancestorChain segs), rfl, ?_, ?_, ?_, ?_, ?_, ?_⟩
  · intro q hq
    have := (List.mem_filter.mp (pruneUp_dirs_subset _ _ hq)).2
    simpa using this
  · intro q hq
    exact (List.mem_filter.mp (pruneUp_dirs_subset _ _ hq)).1
  · intro e he
    rw [pruneUp_specs] at he
    have := List.mem_filter.mp he
    exact ⟨this.1, by simpa using this.2⟩
  · exact fun p hp => mem_ancestorChain segs p hp
  · exact pruneUp_remaining_nonempty _ _ (ancestorChain_pairwise segs)
  · intro p q hp hq hpq hsq hqs
    have hsp : pathPre segs p = false := by
      rcases Bool.eq_false_or_eq_true (pathPre segs p) with h1 | h1
      · have : pathPre segs q = true :=
          pathPre_trans h1 (pathPre_iff.mpr (strictPre_iff.mp hpq).1)
        rw [this] at hsq
        exact Bool.noConfusion hsq
      · exact h1
    have hp1 : p ∈ st1.dirs := List.mem_filter.mpr ⟨hp, by simp [hsp]⟩
    have hq1 : q ∈ st1.dirs := List.mem_filter.mpr ⟨hq, by simp [hsq]⟩
    have hqnot : q ∉ ancestorChain segs := by
      intro hmem
      have := (mem_ancestorChain segs q hmem).1
      rw [strictPre, Bool.and_eq_true] at this
      rw [this.1] at hqs
      exact Bool.noConfusion hqs
    exact (pruneUp_keeps_pair _ st1 p q hp1 hq1 hpq hqnot).1

/-- Witness for C4 at a concrete store: removing `a/b` (which has a
metadata subdirectory) deletes its subtree but keeps the parent `a`,
which still holds `a/c`. -/
theorem envRm_prunes_witness :
    ∃ st', storeW.delete ["a", "b"] = .ok st' ∧
      (∀ q ∈ st'.dirs, pathPre ["a", "b"] q = false) ∧
      st'.dirs ⊆ storeW.dirs ∧
      (∀ e ∈ st'.specs, e ∈ storeW.specs ∧ pathPre ["a", "b"] e.1 = false) ∧
      (∀ p ∈ ancestorChain ["a", "b"], strictPre p ["a", "b"] = true ∧ p ≠ []) ∧
      (∀ p ∈ ancestorChain ["a", "b"], p ∈ st'.dirs → dirEmpty st' p = false) ∧
      (∀ p q, p ∈ storeW.dirs → q ∈ storeW.dirs → strictPre p q = true →
        pathPre ["a", "b"] q = false → pathPre q ["a", "b"] = false → p ∈ st'.dirs) :=
  envRm_prunes storeW ["a", "b"] (by decide)

/-- C1: an `env add` or `env set` invocation passing both a non-empty
`uri` flag and a non-empty `context` flag fails with the mutual-exclusion
validation error of `commonEnvFlags`, for every resolver (so before any
context resolution) and with the tree returned exactly as given (so
without any filesystem write). -/
theorem conflictingFlags_failFast (name : String) (flags : FlagSet)
    (r : Resolver) (w : Bool) (st : Store)
    (hu : (getStringFlag flags.uri "").length ≠ 0)
    (hc : (getStringFlag flags.context "").length ≠ 0) :
    envAddRun [name] flags r st = (some .conflictingFlags, st) ∧
    envSetRun [name] flags r w st = (some .conflictingFlags, st) := by
  have hcf : commonEnvFlags flags = .error .conflictingFlags := by
    simp only [commonEnvFlags]
    rw [if_pos ⟨hc, hu⟩]
  constructor
  · simp only [envAddRun, envAddCmdRun, hcf]
  · simp only [envSetRun, envSetCmdRun, hcf]

/-- Witness for C1 at a concrete invocation. -/
theorem conflictingFlags_failFast_witness :
    envAddRun ["e"] flagsBoth resolverW ⟨[], []⟩ =
      (some .conflictingFlags, (⟨[], []⟩ : Store)) ∧
    envSetRun ["e"] flagsBoth resolverW false ⟨[], []⟩ =
      (some .conflictingFlags, (⟨[], []⟩ : Store)) :=
  conflictingFlags_failFast "e" flagsBoth resolverW false ⟨[], []⟩
    (by decide) (by decide)

/-- C5: `create` fails with the duplicate-environment error — leaving the
tree byte-for-byte unchanged, as `runMutation` records — whenever the
name already exists, an existing leaf lies strictly on its path, or an
existing leaf would become a strict descendant of it. -/
theorem create_duplicate_unchanged (st : Store) (segs : Path)
    (sp : EnvironmentSpec)
    (h : st.existsEnv segs = true ∨
         (∃ e ∈ st.specs, strictPre e.1 segs = true) ∨
         (∃ e ∈ st.specs, strictPre segs e.1 = true)) :
    st.create segs sp = .error .duplicateEnv ∧
    runMutation st (st.create segs sp) = (some .duplicateEnv, st) := by
  have hany : st.specs.any (fun e => pathPre e.1 segs || pathPre segs e.1) = true := by
    rcases h with h | ⟨e, he, hs⟩ | ⟨e, he, hs⟩
    · rcases List.any_eq_true.mp h with ⟨e, he, heq⟩
      have he1 : e.1 = segs := by simpa using heq
      exact List.any_eq_true.mpr ⟨e, he, by simp [he1, pathPre_refl]⟩
    · refine List.any_eq_true.mpr ⟨e, he, ?_⟩
      rw [pathPre_iff.mpr (strictPre_iff.mp hs).1, Bool.true_or]
    · refine List.any_eq_true.mpr ⟨e, he, ?_⟩
      rw [pathPre_iff.mpr (strictPre_iff.mp hs).1, Bool.or_true]
  have hcreate : st.create segs sp = .error .duplicateEnv := by
    rw [Store.create, if_pos hany]
  exact ⟨hcreate, by rw [hcreate]; rfl⟩

/-- Witness for C5: creating `a/b` again in the concrete store fails and
leaves the tree unchanged. -/
theorem create_duplicate_unchanged_witness :
    storeW.create ["a", "b"] specW = .error .duplicateEnv ∧
    runMutation storeW (storeW.create ["a", "b"] specW) =
      (some .duplicateEnv, storeW) :=
  create_duplicate_unchanged storeW ["a", "b"] specW (by decide)

/-- C10: each command checks its positional arity before anything else:
with the wrong number of arguments `env add`, `env rm` and `env set`
return their usage error with the tree untouched, for every flag set and
resolver (so before any flag validation or context resolution), and
`env list` does so for any non-zero argument count. -/
theorem arity_checked_first (args : List String) (flags : FlagSet)
    (r : Resolver) (w : Bool) (st : Store) :
    (args.length ≠ 1 →
      envAddRun args flags r st = (some (.arityError envAddArityMsg), st) ∧
      envRmRun args st = (some (.arityError envRmArityMsg), st) ∧
      envSetRun args flags r w st = (some (.arityError envSetArityMsg), st)) ∧
    (args.length ≠ 0 →
      envListRun args st = .error (.arityError envListArityMsg)) := by
  constructor
  · intro h1
    match args with
    | [] =>
      exact ⟨rfl, rfl, rfl⟩
    | [a] =>
      exact absurd rfl h1
    | a :: b :: rest =>
      exact ⟨rfl, rfl, rfl⟩
  · intro h0
    match args with
    | [] => exact absurd rfl h0
    | a :: rest => rfl




theorem create_lookup {st st' : Store} {segs : Path} {sp : EnvironmentSpec}
    (h : st.create segs sp = .ok st') : st'.lookupSpec segs = some sp := by
  rw [Store.create] at h
  by_cases hany : st.specs.any (fun e => pathPre e.1 segs || pathPre segs e.1) = true
  · rw [if_pos hany] at h
    exact absurd h (by simp)
  · rw [if_neg hany] at h
    cases h
    rw [Store.lookupSpec]
    have hnone : st.specs.find? (fun e => e.1 == segs) = none := by
      rw [List.find?_eq_none]
      intro e he heq
      have he1 : e.1 = segs := by simpa using heq
      exact hany (List.any_eq_true.mpr ⟨e, he, by simp [he1, pathPre_refl]⟩)
    rw [List.find?_append, hnone]
    simp [List.find?]

theorem commonEnvFlags_ok (flags : FlagSet)
    (h : (getStringFlag flags.context "").length = 0 ∨
         (getStringFlag flags.uri "").length = 0) :
    commonEnvFlags flags =
      .ok (getStringFlag flags.uri "", getStringFlag flags.nspace "",
           getStringFlag flags.context "") := by
  simp only [commonEnvFlags]
  rcases h with h | h <;> rw [if_neg (by simp [h])]

theorem envAddCmdRun_conflict (name : String) (flags : FlagSet) (r : Resolver)
    (hu : (getStringFlag flags.uri "").length ≠ 0)
    (hc : (getStringFlag flags.context "").length ≠ 0) :
    envAddCmdRun [name] flags r = .error .conflictingFlags := by
  have hcf : commonEnvFlags flags = .error .conflictingFlags := by
    simp only [commonEnvFlags]
    rw [if_pos ⟨hc, hu⟩]
  simp [envAddCmdRun, hcf]

theorem envAddCmdRun_uri_nonempty (name : String) (flags : FlagSet) (r : Resolver)
    (hu : (getStringFlag flags.uri "").length ≠ 0)
    (hc : (getStringFlag flags.context "").length = 0) :
    envAddCmdRun [name] flags r =
      .ok ⟨name, getStringFlag flags.uri "", getStringFlag flags.nspace "",
           getStringFlag flags.apiSpec flagAPISpecDefault⟩ := by
  simp [envAddCmdRun, commonEnvFlags_ok flags (Or.inl hc), hu]

theorem envAddCmdRun_resolve (name : String) (flags : FlagSet) (r : Resolver)
    (hu : (getStringFlag flags.uri "").length = 0) :
    envAddCmdRun [name] flags r =
      (match r (ctxArg flags) with
       | .error e => .error e
       | .ok (u, ns) =>
         .ok ⟨name, u, if (getStringFlag flags.nspace "").length = 0 then ns
                       else getStringFlag flags.nspace "",
              getStringFlag flags.apiSpec flagAPISpecDefault⟩) := by
  simp [envAddCmdRun, commonEnvFlags_ok flags (Or.inr hu), hu, ctxArg]


/-- C3: in `env add` the resolver is consulted exactly when the `uri`
flag is empty.  With a non-empty `uri` the outcome is the same under any
two resolvers, and (absent a conflicting `context`) the flag values pass
through untouched.  With an empty `uri` the resolver is invoked on
`ctxArg` — the `context` flag, or `none` when that flag is empty, meaning
the currently active context — its uri is adopted, its namespace only
when the `namespace` flag is empty (a non-empty flag wins), and its error
is surfaced. -/
theorem envAdd_resolution (name : String) (flags : FlagSet) (r r1 r2 : Resolver) :
    ((getStringFlag flags.context "").length ≠ 0 →
      ctxArg flags = some (getStringFlag flags.context "")) ∧
    ((getStringFlag flags.context "").length = 0 → ctxArg flags = none) ∧
    ((getStringFlag flags.uri "").length ≠ 0 →
      envAddCmdRun [name] flags r1 = envAddCmdRun [name] flags r2 ∧
      ((getStringFlag flags.context "").length = 0 →
        envAddCmdRun [name] flags r =
          .ok ⟨name, getStringFlag flags.uri "", getStringFlag flags.nspace "",
               getStringFlag flags.apiSpec flagAPISpecDefault⟩)) ∧
    ((getStringFlag flags.uri "").length = 0 →
      (∀ u ns, r (ctxArg flags) = .ok (u, ns) →
        envAddCmdRun [name] flags r =
          .ok ⟨name, u,
               if (getStringFlag flags.nspace "").length = 0 then ns
               else getStringFlag flags.nspace "",
               getStringFlag flags.apiSpec flagAPISpecDefault⟩) ∧
      (∀ e, r (ctxArg flags) = .error e →
        envAddCmdRun [name] flags r = .error e)) := by
  refine ⟨fun hc => ?_, fun hc => ?_, fun hu => ⟨?_, fun hc => ?_⟩, fun hu => ⟨?_, ?_⟩⟩
  · rw [ctxArg, if_pos hc]
  · rw [ctxArg, if_neg (by simp [hc])]
  · by_cases hc : (getStringFlag flags.context "").length = 0
    · rw [envAddCmdRun_uri_nonempty name flags r1 hu hc,
          envAddCmdRun_uri_nonempty name flags r2 hu hc]
    · rw [envAddCmdRun_conflict name flags r1 hu hc,
          envAddCmdRun_conflict name flags r2 hu hc]
  · exact envAddCmdRun_uri_nonempty name flags r hu hc
  · intro u ns hr
    rw [envAddCmdRun_resolve name flags r hu, hr]
  · intro e hr
    rw [envAddCmdRun_resolve name flags r hu, hr]

/-- C9: the `--api-spec` flag of `env add` defaults to `version:v1.7.0`:
the spec version handed to the store is always the flag's value with the
default substituted when the flag is unset, and a successful `env add`
persists exactly that value in the created spec. -/
theorem envAdd_apiSpec_default (name : String) (flags : FlagSet) (r : Resolver)
    (st : Store) :
    (∀ p, envAddCmdRun [name] flags r = .ok p →
      p.spec = getStringFlag flags.apiSpec flagAPISpecDefault) ∧
    (flags.apiSpec = none →
      getStringFlag flags.apiSpec flagAPISpecDefault = "version:v1.7.0") ∧
    (∀ v, flags.apiSpec = some v →
      getStringFlag flags.apiSpec flagAPISpecDefault = v) ∧
    (∀ st', envAddRun [name] flags r st = (none, st') →
      ∃ segs p, normalize name = .ok segs ∧ envAddCmdRun [name] flags r = .ok p ∧
        st'.lookupSpec segs =
          some ⟨p.uri, p.nspace, getStringFlag flags.apiSpec flagAPISpecDefault⟩) := by
  have hboth : ∀ p, envAddCmdRun [name] flags r = .ok p →
      p.spec = getStringFlag flags.apiSpec flagAPISpecDefault ∧ p.name = name := by
    intro p hp
    by_cases hu : (getStringFlag flags.uri "").length = 0
    · rw [envAddCmdRun_resolve name flags r hu] at hp
      rcases hres : r (ctxArg flags) with e | ⟨u, ns⟩
      · rw [hres] at hp
        exact absurd hp (by simp)
      · rw [hres] at hp
        cases hp
        exact ⟨rfl, rfl⟩
    · by_cases hc : (getStringFlag flags.context "").length = 0
      · rw [envAddCmdRun_uri_nonempty name flags r hu hc] at hp
        cases hp
        exact ⟨rfl, rfl⟩
      · rw [envAddCmdRun_conflict name flags r hu hc] at hp
        exact absurd hp (by simp)
  refine ⟨fun p hp => (hboth p hp).1, fun h => by rw [h]; rfl,
    fun v h => by rw [h]; rfl, ?_⟩
  intro st' hrun
  rw [envAddRun] at hrun
  split at hrun
  · exact absurd hrun (by simp)
  case _ p hp =>
    split at hrun
    · exact absurd hrun (by simp)
    case _ segs hsegs =>
      split at hrun
      · exact absurd hrun (by simp)
      case _ st2 hc =>
        cases hrun
        rw [(hboth p hp).2] at hsegs
        refine ⟨segs, p, hsegs, hp, ?_⟩
        rw [create_lookup hc, ← (hboth p hp).1]

/-- C2: in `env set` a non-empty `context` flag is resolved into a new
uri only: the namespace the resolver returns is dropped, and the
namespace handed to the store (and so the one applied to the spec) is the
flag's own value — unlike `env add`, which adopts the resolved namespace
whenever its `namespace` flag is empty. -/
theorem envSet_context_uri_only (originalName : String) (flags : FlagSet)
    (r : Resolver) (u ns : String)
    (hc : (getStringFlag flags.context "").length ≠ 0)
    (hu : (getStringFlag flags.uri "").length = 0)
    (hr : r (some (getStringFlag flags.context "")) = .ok (u, ns)) :
    envSetCmdRun [originalName] flags r =
      .ok ⟨originalName, getStringFlag flags.name "", u,
           getStringFlag flags.nspace ""⟩ ∧
    (∀ w st, envSetRun [originalName] flags r w st =
      envSetStoreRun ⟨originalName, getStringFlag flags.name "", u,
                      getStringFlag flags.nspace ""⟩ w st) ∧
    ((getStringFlag flags.nspace "").length = 0 →
      envAddCmdRun [originalName] flags r =
        .ok ⟨originalName, u, ns, getStringFlag flags.apiSpec flagAPISpecDefault⟩) := by
  have h1 : envSetCmdRun [originalName] flags r =
      .ok ⟨originalName, getStringFlag flags.name "", u,
           getStringFlag flags.nspace ""⟩ := by
    simp only [envSetCmdRun, commonEnvFlags_ok flags (Or.inr hu)]
    rw [if_pos hc, hr]
  refine ⟨h1, fun w st => by rw [envSetRun, h1], fun hns => ?_⟩
  rw [envAddCmdRun_resolve originalName flags r hu, ctxArg, if_pos hc, hr]
  simp [hns]

/-- Witness for C2 at a concrete invocation: the resolver returns the
namespace `ns-resolved`, which `env set` drops and `env add` adopts. -/
theorem envSet_context_uri_only_witness :
    envSetCmdRun ["e"] flagsCtx resolverW =
      .ok ⟨"e", getStringFlag flagsCtx.name "", "https://resolved-dev",
           getStringFlag flagsCtx.nspace ""⟩ ∧
    (∀ w st, envSetRun ["e"] flagsCtx resolverW w st =
      envSetStoreRun ⟨"e", getStringFlag flagsCtx.name "", "https://resolved-dev",
                      getStringFlag flagsCtx.nspace ""⟩ w st) ∧
    ((getStringFlag flagsCtx.nspace "").length = 0 →
      envAddCmdRun ["e"] flagsCtx resolverW =
        .ok ⟨"e", "https://resolved-dev", "ns-resolved",
             getStringFlag flagsCtx.apiSpec flagAPISpecDefault⟩) :=
  envSet_context_uri_only "e" flagsCtx resolverW "https://resolved-dev" "ns-resolved"
    (by decide) (by decide) rfl


theorem badSegment_eq_false_parts {s : String} (h : badSegment s = false) :
    s ≠ "" ∧ s ≠ "." ∧ s ≠ ".." ∧ (∀ c ∈ s.toList, isSafeChar c = true) := by
  rw [badSegment] at h
  simp only [Bool.or_eq_false_iff, Bool.not_eq_false'] at h
  rcases h with ⟨⟨⟨hemp, hdot⟩, hdots⟩, hall⟩
  refine ⟨?_, ?_, ?_, List.all_eq_true.mp hall⟩
  · intro he
    rw [(String.isEmpty_iff s).mpr he] at hemp
    exact Bool.noConfusion hemp
  · exact beq_eq_false_iff_ne.mp hdot
  · exact beq_eq_false_iff_ne.mp hdots

/-- C8: `normalize` is a pure function that either returns the
`/`-separated segments of its input or fails with an invalid-name error.
A success carries no empty segment, no `.`, no `..`, and only characters
of the conservative safe set — which excludes both path separators — so a
normalized name cannot escape the environments root; it fails on empty
input and whenever any segment is bad, and a segment is bad whenever it
is empty, `.`, `..`, or holds a character outside the safe set. -/
theorem normalize_safe (raw : String) :
    (∀ segs, normalize raw = .ok segs →
      segs = splitSlash raw ∧
      ∀ s ∈ segs, s ≠ "" ∧ s ≠ "." ∧ s ≠ ".." ∧
        (∀ c ∈ s.toList, isSafeChar c = true) ∧
        '/' ∉ s.toList ∧ '\\' ∉ s.toList) ∧
    (raw = "" → normalize raw = .error (.invalidName "")) ∧
    ((∃ s ∈ splitSlash raw, badSegment s = true) →
      ∃ t, normalize raw = .error (.invalidName t) ∧ badSegment t = true) ∧
    (∀ s : String,
      (s = "" ∨ s = "." ∨ s = ".." ∨ ∃ c ∈ s.toList, isSafeChar c = false) →
      badSegment s = true) ∧
    isSafeChar '/' = false ∧ isSafeChar '\\' = false := by
  refine ⟨?_, ?_, ?_, ?_, by decide, by decide⟩
  · intro segs h
    rw [normalize] at h
    by_cases hemp : raw.isEmpty = true
    · rw [if_pos hemp] at h
      exact absurd h (by simp)
    · rw [if_neg hemp] at h
      rcases hf : (splitSlash raw).find? badSegment with _ | t
      · rw [hf] at h
        cases h
        refine ⟨rfl, fun s hs => ?_⟩
        have hbad : badSegment s = false := by
          have := List.find?_eq_none.mp hf s hs
          simpa using this
        rcases badSegment_eq_false_parts hbad with ⟨h1, h2, h3, h4⟩
        refine ⟨h1, h2, h3, h4, ?_, ?_⟩
        · intro hmem
          exact absurd (h4 _ hmem) (by decide)
        · intro hmem
          exact absurd (h4 _ hmem) (by decide)
      · rw [hf] at h
        exact absurd h (by simp)
  · intro h
    rw [h]
    rfl
  · intro hex
    by_cases hemp : raw.isEmpty = true
    · have hraw : raw = "" := (String.isEmpty_iff raw).mp hemp
      refine ⟨"", ?_, by decide⟩
      rw [hraw]
      rfl
    · have hsome : ((splitSlash raw).find? badSegment).isSome = true :=
        List.find?_isSome.mpr hex
      rcases hf : (splitSlash raw).find? badSegment with _ | t
      · rw [hf] at hsome
        exact Bool.noConfusion hsome
      · refine ⟨t, ?_, List.find?_some hf⟩
        rw [normalize, if_neg hemp, hf]
  · intro s h
    rcases h with rfl | rfl | rfl | ⟨c, hcmem, hcbad⟩
    · decide
    · decide
    · decide
    · have hall : s.toList.all isSafeChar = false :=
        List.all_eq_false.mpr ⟨c, hcmem, by simp [hcbad]⟩
      rw [badSegment, hall]
      rw [Bool.not_false, Bool.or_true]




theorem any_eq_find_isSome (l : List (Path × EnvironmentSpec)) (segs : Path) :
    l.any (fun e => e.1 == segs) =
      ((l.find? (fun e => e.1 == segs)).map (fun e => e.2)).isSome := by
  induction l with
  | nil => rfl
  | cons e rest ih =>
    rw [List.any_cons, List.find?_cons]
    cases hbe : (e.1 == segs) with
    | true => simp
    | false =>
      rw [Bool.false_or]
      exact ih

theorem existsEnv_eq_isSome (st : Store) (segs : Path) :
    st.existsEnv segs = (st.lookupSpec segs).isSome := by
  rw [Store.existsEnv, Store.lookupSpec]
  exact any_eq_find_isSome st.specs segs

theorem existsEnv_of_lookup {st : Store} {segs : Path} {sp : EnvironmentSpec}
    (h : st.lookupSpec segs = some sp) : st.existsEnv segs = true := by
  rw [existsEnv_eq_isSome, h]
  rfl

theorem find?_map_update (l : List (Path × EnvironmentSpec)) (segs : Path)
    (f : EnvironmentSpec → EnvironmentSpec) :
    ((l.map (fun e => if e.1 == segs then (e.1, f e.2) else e)).find?
        (fun e => e.1 == segs)).map (fun e => e.2) =
      ((l.find? (fun e => e.1 == segs)).map (fun e => e.2)).map f := by
  induction l with
  | nil => rfl
  | cons e rest ih =>
    rw [List.map_cons, List.find?_cons, List.find?_cons]
    cases hbe : (e.1 == segs) with
    | true => simp [hbe]
    | false =>
      simp [hbe]
      simpa using ih

theorem updateSpec_lookup {st st' : Store} {segs : Path}
    {f : EnvironmentSpec → EnvironmentSpec}
    (h : st.updateSpec segs f = .ok st') :
    st'.dirs = st.dirs ∧
    st'.lookupSpec segs = (st.lookupSpec segs).map f := by
  rw [Store.updateSpec] at h
  by_cases hex : st.existsEnv segs = true
  · rw [if_pos hex] at h
    cases h
    exact ⟨rfl, find?_map_update st.specs segs f⟩
  · rw [if_neg hex] at h
    exact absurd h (by simp)

theorem find?_map_move (l : List (Path × EnvironmentSpec)) (oldP newP : Path)
    (hd : newP ≠ oldP)
    (hinv : ∀ e ∈ l, pathPre oldP e.1 = true → e.1 = oldP)
    (hnew : ∀ e ∈ l, e.1 ≠ newP) :
    ((l.map (fun e => if pathPre oldP e.1 then (movePath oldP newP e.1, e.2)
                      else e)).find?
        (fun e => e.1 == newP)).map (fun e => e.2) =
      (l.find? (fun e => e.1 == oldP)).map (fun e => e.2) ∧
    (l.map (fun e => if pathPre oldP e.1 then (movePath oldP newP e.1, e.2)
                     else e)).any (fun e => e.1 == oldP) = false := by
  induction l with
  | nil => exact ⟨rfl, rfl⟩
  | cons e rest ih =>
    have ihr := ih (fun x hx => hinv x (List.mem_cons_of_mem e hx))
      (fun x hx => hnew x (List.mem_cons_of_mem e hx))
    rw [List.map_cons, List.find?_cons, List.find?_cons, List.any_cons]
    cases hp : pathPre oldP e.1 with
    | true =>
      have he1 : e.1 = oldP := hinv e (List.mem_cons_self e rest) hp
      have hmv : movePath oldP newP oldP = newP := by
        rw [movePath, if_pos (pathPre_refl oldP), List.drop_length,
            List.append_nil]
      have hdo : (newP == oldP) = false := beq_eq_false_iff_ne.mpr hd
      constructor
      · simp [he1, hmv]
      · simp [he1, hmv, hdo]
        simpa using ihr.2
    | false =>
      have hne : e.1 ≠ oldP := by
        intro hh
        rw [hh, pathPre_refl] at hp
        exact Bool.noConfusion hp
      have hbo : (e.1 == oldP) = false := beq_eq_false_iff_ne.mpr hne
      have hbn : (e.1 == newP) = false :=
        beq_eq_false_iff_ne.mpr (hnew e (List.mem_cons_self e rest))
      constructor
      · simp [hbo, hbn]
        simpa using ihr.1
      · simp [hbo]
        simpa using ihr.2

theorem rename_moves {st st1 : Store} {oldP newP : Path}
    (hd : oldP ≠ newP)
    (hinv : ∀ e ∈ st.specs, pathPre oldP e.1 = true → e.1 = oldP)
    (h : st.rename oldP newP = .ok st1) :
    st1.lookupSpec newP = st.lookupSpec oldP ∧
    st1.existsEnv oldP = false ∧
    st.existsEnv oldP = true ∧ st.existsEnv newP = false := by
  rw [Store.rename] at h
  split at h
  next hc => exact absurd h (by simp)
  next hc =>
    split at h
    next hc2 => exact absurd h (by simp)
    next hc2 =>
      have h1 : st.existsEnv oldP = true := by
        rcases Bool.eq_false_or_eq_true (st.existsEnv oldP) with h0 | h0
        · exact h0
        · exact absurd (by simp [h0]) hc
      have h2 : st.existsEnv newP = false := by simpa using hc2
      have hnew : ∀ e ∈ st.specs, e.1 ≠ newP := by
        intro e he
        have := List.any_eq_false.mp h2 e he
        simpa using this
      have hmm := find?_map_move st.specs oldP newP (Ne.symm hd) hinv hnew
      cases h
      constructor
      · rw [Store.lookupSpec, Store.lookupSpec, pruneUp_specs]
        exact hmm.1
      · refine ⟨?_, h1, h2⟩
        rw [Store.existsEnv, pruneUp_specs]
        exact hmm.2


/-- C6: when `env set` both renames an environment and changes spec
fields and the spec-file write fails after the rename committed, the run
reports the store error and the resulting tree is exactly the
post-rename one: the environment sits under the new name with its old
spec values, the old name is gone, and no rename-back is attempted. -/
theorem envSet_rename_no_rollback (st st1 : Store) (p : EnvSetParams)
    (oldSegs newSegs : Path)
    (h1 : normalize p.originalName = .ok oldSegs)
    (h2 : normalize p.name = .ok newSegs)
    (hnm : p.name.length ≠ 0) (hne : p.name ≠ p.originalName)
    (hch : ¬(p.uri.length = 0 ∧ p.nspace.length = 0))
    (hsne : oldSegs ≠ newSegs)
    (hinv : ∀ e ∈ st.specs, pathPre oldSegs e.1 = true → e.1 = oldSegs)
    (hren : st.rename oldSegs newSegs = .ok st1) :
    envSetStoreRun p true st = (some .storeIOError, st1) ∧
    st1.lookupSpec newSegs = st.lookupSpec oldSegs ∧
    st1.existsEnv newSegs = st.existsEnv oldSegs ∧
    st1.existsEnv oldSegs = false := by
  have hmv := rename_moves hsne hinv hren
  refine ⟨?_, hmv.1, ?_, hmv.2.1⟩
  · simp only [envSetStoreRun, h1]
    rw [if_pos ⟨hnm, hne⟩, h2]
    dsimp only
    rw [hren]
    dsimp only
    rw [if_neg hch]
    simp
  · rw [existsEnv_eq_isSome, existsEnv_eq_isSome, hmv.1]

/-- Witness for C6: renaming `a/b` to `c` with a namespace change and a
failing spec write leaves the environment at `c` with its old spec. -/
theorem envSet_rename_no_rollback_witness :
    envSetStoreRun ⟨"a/b", "c", "", "prod"⟩ true storeW = (some .storeIOError, storeW1) ∧
    storeW1.lookupSpec ["c"] = storeW.lookupSpec ["a", "b"] ∧
    storeW1.existsEnv ["c"] = storeW.existsEnv ["a", "b"] ∧
    storeW1.existsEnv ["a", "b"] = false :=
  envSet_rename_no_rollback storeW storeW1 ⟨"a/b", "c", "", "prod"⟩ ["a", "b"] ["c"]
    rfl rfl (by decide) (by decide) (by decide) (by decide) (by decide) rfl

/-- C7: an `env set` that supplies only a namespace (no rename, no uri,
no context) succeeds, leaves the directory tree unchanged, and reading
the spec back yields the new namespace together with the original `uri`
and `apiSpecVersion`. -/
theorem envSet_namespace_roundTrip (oldName : String) (flags : FlagSet)
    (r : Resolver) (st : Store) (segs : Path) (sp : EnvironmentSpec)
    (hn : getStringFlag flags.name "" = "")
    (hu : getStringFlag flags.uri "" = "")
    (hc : getStringFlag flags.context "" = "")
    (hns : (getStringFlag flags.nspace "").length ≠ 0)
    (hnorm : normalize oldName = .ok segs)
    (hlook : st.lookupSpec segs = some sp) :
    ∃ st', envSetRun [oldName] flags r false st = (none, st') ∧
      st'.dirs = st.dirs ∧
      st'.lookupSpec segs =
        some ⟨sp.uri, getStringFlag flags.nspace "", sp.apiSpecVersion⟩ := by
  have hc0 : (getStringFlag flags.context "").length = 0 := by
    rw [hc]
    rfl
  have hcmd : envSetCmdRun [oldName] flags r =
      .ok ⟨oldName, "", "", getStringFlag flags.nspace ""⟩ := by
    simp only [envSetCmdRun, commonEnvFlags_ok flags (Or.inl hc0)]
    rw [if_neg (by simp [hc0]), hn, hu]
  have hex : st.existsEnv segs = true := existsEnv_of_lookup hlook
  rcases hupd : st.updateSpec segs (fun sp =>
      ⟨if ("" : String).length ≠ 0 then "" else sp.uri,
       if (getStringFlag flags.nspace "").length ≠ 0 then getStringFlag flags.nspace ""
       else sp.nspace, sp.apiSpecVersion⟩) with e | st'
  · rw [Store.updateSpec, if_pos hex] at hupd
    exact absurd hupd (by simp)
  · refine ⟨st', ?_, (updateSpec_lookup hupd).1, ?_⟩
    · rw [envSetRun, hcmd]
      simp only [envSetStoreRun, hnorm]
      rw [if_neg (by simp)]
      dsimp only
      rw [if_neg (by simp [hns])]
      rw [hupd]
      rfl
    · rw [(updateSpec_lookup hupd).2, hlook]
      simp [hns]

/-- Witness for C7: setting only the namespace of `a/b` to `prod`. -/
theorem envSet_namespace_roundTrip_witness :
    ∃ st', envSetRun ["a/b"] flagsNs resolverW false storeW = (none, st') ∧
      st'.dirs = storeW.dirs ∧
      st'.lookupSpec ["a", "b"] =
        some ⟨specW.uri, getStringFlag flagsNs.nspace "", specW.apiSpecVersion⟩ :=
  envSet_namespace_roundTrip "a/b" flagsNs resolverW storeW ["a", "b"] specW
    (by decide) (by decide) (by decide) (by decide) rfl rfl

end Ksonnet
